import Mathlib

/-!
Verification of the PyCryptography repository (Caesar, Polybius square,
Vigenere, Playfair ciphers and their shared utilities).

The Python sources are shallowly embedded: strings become `List Char`,
CPython exceptions (ValueError, IndexError, ZeroDivisionError, re.error)
become `none` in `Option`-valued results, and `str.upper` is modelled on
the ASCII range (`pyUpperChar`).  Integer arithmetic uses `Int` with
`%` = `Int.emod`, which agrees with the Python `%` operator for a
positive modulus (result in `[0, modulus)`).
-/

/-- Model of Python `str.upper` on a single character, faithful on the
ASCII range used by the ciphers: ASCII lowercase letters are mapped to
uppercase, everything else is unchanged. -/
def pyUpperChar (c : Char) : Char :=
  if 'a' ≤ c ∧ c ≤ 'z' then Char.ofNat (c.toNat - 32) else c

/-- Model of Python `str.upper` on a whole string. -/
def pyUpperList (l : List Char) : List Char := l.map pyUpperChar

/-- Model of Python `list.index` / `str.index`: position of the first
occurrence, or `none` when the element is absent (Python raises
ValueError there). -/
def pyIndex (l : List Char) (c : Char) : Option Nat :=
  if c ∈ l then some (l.indexOf c) else none

/-- Model of the Python expression `l[i % len(l)]` on a list of numbers:
`none` models the ZeroDivisionError raised when `l` is empty. -/
def pyModGet (l : List Nat) (i : Nat) : Option Nat :=
  if l.length = 0 then none else l.get? (i % l.length)

/-- Model of a Python list comprehension whose body may raise: the
comprehension succeeds iff every element does. -/
def collectSome {α : Type} : List (Option α) → Option (List α)
  | [] => some []
  | none :: _ => none
  | some a :: rest => (collectSome rest).map (fun l => a :: l)

/-- Model of Python `int(c)` for a single character: the digit value for
a decimal digit, `none` (ValueError) otherwise. -/
def pyIntChar (c : Char) : Option Nat :=
  if '0' ≤ c ∧ c ≤ '9' then some (c.toNat - 48) else none

namespace Caesar

/-- One character of `Caesar.encrypt` (src/ciphers.py lines 103 to 106):
`chr((ord(char) + shift - ord('A')) % 26 + ord('A'))` for characters in
the window from 'A' to 'Z', everything else passes through. -/
def encChar (s : Int) (c : Char) : Char :=
  if 'A' ≤ c ∧ c ≤ 'Z' then
    Char.ofNat ((((c.toNat : Int) + s - 65) % 26 + 65).toNat)
  else c

/-- One character of `Caesar.decrypt` (src/ciphers.py lines 122 to 125),
identical to `encChar` with the shift negated. -/
def decChar (s : Int) (c : Char) : Char :=
  if 'A' ≤ c ∧ c ≤ 'Z' then
    Char.ofNat ((((c.toNat : Int) - s - 65) % 26 + 65).toNat)
  else c

/-- Embedding of Caesar.encrypt: the message is uppercased by
`_validate_input_string` and then mapped character by character. -/
def encrypt (s : Int) (msg : List Char) : List Char :=
  (pyUpperList msg).map (encChar s)

/-- Embedding of Caesar.decrypt: the message is uppercased by
`_validate_input_string` and then mapped character by character. -/
def decrypt (s : Int) (msg : List Char) : List Char :=
  (pyUpperList msg).map (decChar s)

end Caesar

-- sanity check examples
example : Caesar.encrypt 3 [ 'h', 'a', 'l', '!' ] = [ 'K', 'D', 'O', '!' ] := by decide
example : Caesar.decrypt 3 (Caesar.encrypt 3 [ 'h', 'a', 'l', '!' ]) = [ 'H', 'A', 'L', '!' ] := by
  decide
example : Caesar.encrypt (-1) [ 'A' ] = [ 'Z' ] := by decide
example : Caesar.encrypt 53 [ 'A' ] = [ 'B' ] := by decide

/-! Character-level helper lemmas. -/

theorem char_le_iff_toNat {c d : Char} : c ≤ d ↔ c.toNat ≤ d.toNat := Iff.rfl

theorem toNat_ofNat_valid {n : Nat} (h : n < 55296) : (Char.ofNat n).toNat = n := by
  unfold Char.ofNat
  rw [dif_pos (Or.inl h)]
  rfl

theorem char_eq_of_toNat {c d : Char} (h : c.toNat = d.toNat) : c = d := by
  have h2 := Char.ofNat_toNat c
  rw [h, Char.ofNat_toNat] at h2
  exact h2.symm

theorem pyUpperChar_toNat_low {c : Char} (h1 : 97 ≤ c.toNat) (h2 : c.toNat ≤ 122) :
    (pyUpperChar c).toNat = c.toNat - 32 := by
  unfold pyUpperChar
  rw [if_pos ⟨h1, h2⟩]
  exact toNat_ofNat_valid (by omega)

theorem pyUpperChar_not_low {c : Char} (h : ¬(97 ≤ c.toNat ∧ c.toNat ≤ 122)) :
    pyUpperChar c = c := by
  unfold pyUpperChar
  exact if_neg h

/-- The result of `pyUpperChar` never lies in the ASCII lowercase range. -/
theorem pyUpperChar_result_not_low (c : Char) :
    ¬(97 ≤ (pyUpperChar c).toNat ∧ (pyUpperChar c).toNat ≤ 122) := by
  by_cases h : 97 ≤ c.toNat ∧ c.toNat ≤ 122
  · rw [pyUpperChar_toNat_low h.1 h.2]
    omega
  · rw [pyUpperChar_not_low h]
    exact h

theorem pyUpperChar_idem (c : Char) : pyUpperChar (pyUpperChar c) = pyUpperChar c :=
  pyUpperChar_not_low (pyUpperChar_result_not_low c)

theorem pyUpperList_idem (l : List Char) : pyUpperList (pyUpperList l) = pyUpperList l := by
  unfold pyUpperList
  rw [List.map_map]
  exact List.map_congr_left (fun c _ => pyUpperChar_idem c)

/-- A list each of whose characters is fixed by `pyUpperChar` is fixed by
`pyUpperList`. -/
theorem pyUpperList_fixed {l : List Char} (h : ∀ c ∈ l, pyUpperChar c = c) :
    pyUpperList l = l := by
  unfold pyUpperList
  exact List.map_congr_left h |>.trans (List.map_id l)

/-! Caesar cipher lemmas for claim C1. -/

namespace Caesar

theorem encChar_toNat {s : Int} {c : Char} (h1 : 65 ≤ c.toNat) (h2 : c.toNat ≤ 90) :
    ((encChar s c).toNat : Int) = ((c.toNat : Int) + s - 65) % 26 + 65 ∧
    65 ≤ (encChar s c).toNat ∧ (encChar s c).toNat ≤ 90 := by
  have hwin : 'A' ≤ c ∧ c ≤ 'Z' := ⟨h1, h2⟩
  have hm0 : 0 ≤ ((c.toNat : Int) + s - 65) % 26 := Int.emod_nonneg _ (by omega)
  have hm1 : ((c.toNat : Int) + s - 65) % 26 < 26 := Int.emod_lt_of_pos _ (by omega)
  unfold encChar
  rw [if_pos hwin]
  have hv : (((c.toNat : Int) + s - 65) % 26 + 65).toNat < 55296 := by omega
  rw [toNat_ofNat_valid hv]
  omega

theorem dec_enc_char (s : Int) (c : Char) : decChar s (encChar s c) = c := by
  by_cases hwin : 'A' ≤ c ∧ c ≤ 'Z'
  · have h1 : 65 ≤ c.toNat := hwin.1
    have h2 : c.toNat ≤ 90 := hwin.2
    obtain ⟨he, he1, he2⟩ := encChar_toNat (s := s) h1 h2
    unfold decChar
    rw [if_pos ⟨he1, he2⟩]
    apply char_eq_of_toNat
    rw [toNat_ofNat_valid (by omega)]
    have key : (((encChar s c).toNat : Int) - s - 65) % 26 = (c.toNat : Int) - 65 := by
      rw [he]
      have e1 : ((c.toNat : Int) + s - 65) % 26 + 65 - s - 65
          = ((c.toNat : Int) + s - 65) % 26 - s := by ring
      rw [e1, Int.sub_emod, Int.emod_emod_of_dvd _ (dvd_refl 26), ← Int.sub_emod]
      have e2 : (c.toNat : Int) + s - 65 - s = (c.toNat : Int) - 65 := by ring
      rw [e2]
      exact Int.emod_eq_of_lt (by omega) (by omega)
    rw [key]
    omega
  · have hc : encChar s c = c := by unfold encChar; rw [if_neg hwin]
    rw [hc]
    unfold decChar
    rw [if_neg hwin]

/-- Output characters of `encChar` stay fixed under a further uppercase
pass, provided the input character was already uppercase-fixed. -/
theorem encChar_upper_fixed {s : Int} {c : Char} (h : pyUpperChar c = c) :
    pyUpperChar (encChar s c) = encChar s c := by
  by_cases hwin : 'A' ≤ c ∧ c ≤ 'Z'
  · obtain ⟨_, he1, he2⟩ := encChar_toNat (s := s) hwin.1 hwin.2
    exact pyUpperChar_not_low (by omega)
  · have hc : encChar s c = c := by unfold encChar; rw [if_neg hwin]
    rw [hc, h]

end Caesar

/-- Claim C1.  For every shift (negative and oversized shifts included) and
every message, Caesar decryption inverts Caesar encryption up to
uppercasing; the modular index used for each in-window character lies in
the interval from 0 to 25; and characters outside the window from 'A' to
'Z' pass through `encChar` and `decChar` unchanged. -/
theorem claim_c1 (s : Int) (msg : List Char) :
    Caesar.decrypt s (Caesar.encrypt s msg) = pyUpperList msg ∧
    (∀ c : Char, 'A' ≤ c ∧ c ≤ 'Z' →
      (0 ≤ ((c.toNat : Int) + s - 65) % 26 ∧ ((c.toNat : Int) + s - 65) % 26 < 26) ∧
      (0 ≤ ((c.toNat : Int) - s - 65) % 26 ∧ ((c.toNat : Int) - s - 65) % 26 < 26)) ∧
    (∀ c : Char, ¬('A' ≤ c ∧ c ≤ 'Z') → Caesar.encChar s c = c ∧ Caesar.decChar s c = c) := by
  refine ⟨?_, ?_, ?_⟩
  · unfold Caesar.decrypt Caesar.encrypt
    have hfix : pyUpperList ((pyUpperList msg).map (Caesar.encChar s))
        = (pyUpperList msg).map (Caesar.encChar s) := by
      apply pyUpperList_fixed
      intro c hc
      obtain ⟨x, hx, rfl⟩ := List.mem_map.1 hc
      obtain ⟨y, _, rfl⟩ := List.mem_map.1 hx
      exact Caesar.encChar_upper_fixed (pyUpperChar_idem y)
    rw [hfix, List.map_map]
    have : (Caesar.decChar s ∘ Caesar.encChar s) = id := by
      funext c
      exact Caesar.dec_enc_char s c
    rw [this, List.map_id]
  · intro c _
    exact ⟨⟨Int.emod_nonneg _ (by omega), Int.emod_lt_of_pos _ (by omega)⟩,
      ⟨Int.emod_nonneg _ (by omega), Int.emod_lt_of_pos _ (by omega)⟩⟩
  · intro c hc
    constructor
    · unfold Caesar.encChar; rw [if_neg hc]
    · unfold Caesar.decChar; rw [if_neg hc]

/-! Alphabet constants from src/utils.py and src/cipher_utils.py. -/

def eng26_str_upper : List Char := "ABCDEFGHIJKLMNOPQRSTUVWXYZ".data

def eng25_str_upper : List Char := "ABCDEFGHIKLMNOPQRSTUVWXYZ".data

/-- The constant named rus36_str_upper on line 34 of src/utils.py.  That
file is mojibake: its UTF-8 bytes decode to 33 CJK characters followed by
hyphen, underscore and period, not to Cyrillic letters.  The exact code
points stored in the source file are reproduced here. -/
def rus36_str_upper : List Char :=
  [Char.ofNat 0x8897, Char.ofNat 0x8898, Char.ofNat 0x8899, Char.ofNat 0x889A,
   Char.ofNat 0x889B, Char.ofNat 0x889D, Char.ofNat 0x887C, Char.ofNat 0x889E,
   Char.ofNat 0x889F, Char.ofNat 0x88A0, Char.ofNat 0x88A1, Char.ofNat 0x88A3,
   Char.ofNat 0x88A5, Char.ofNat 0x88A6, Char.ofNat 0x88A7, Char.ofNat 0x88A8,
   Char.ofNat 0x88A9, Char.ofNat 0x88AA, Char.ofNat 0x5C0F, Char.ofNat 0x5B5D,
   Char.ofNat 0x6821, Char.ofNat 0x8096, Char.ofNat 0x5578, Char.ofNat 0x7B11,
   Char.ofNat 0x6548, Char.ofNat 0x6954, Char.ofNat 0x4E9B, Char.ofNat 0x6B47,
   Char.ofNat 0x874E, Char.ofNat 0x978B, Char.ofNat 0x534F, Char.ofNat 0x631F,
   Char.ofNat 0x643A, '-', '_', '.']

namespace SupportedLanguages

def ENGLISH : List Char := "en".data

def RUSSIAN : List Char := "ru".data

end SupportedLanguages

/-- utils.is_valid_eng: full match of the pattern with character class
from 'A' to 'Z', one or more times, so nonempty and all uppercase ASCII
letters. -/
def is_valid_eng (value : List Char) : Bool :=
  !value.isEmpty && value.all (fun c => decide ('A' ≤ c) && decide (c ≤ 'Z'))

/-- utils.is_valid_rus: the regular expression on line 67 of src/utils.py
contains a character class whose range runs from U+8897 down to U+643A, a
descending range, so re.fullmatch raises re.error (bad character range) on
every call.  The raised exception is modelled as `none`. -/
def is_valid_rus (_value : List Char) : Option Bool := none

/-- Outcome of utils.is_supported_language: a successful (alphabet, size)
pair, the re.error escaping from `is_valid_rus`, or the ValueError raised
at the end of the function. -/
inductive RegistryResult where
  | ok : List Char → Nat → RegistryResult
  | reError : RegistryResult
  | valueError : RegistryResult
deriving DecidableEq

/-- utils.is_supported_language.  Python truthiness notes: in the first
condition `(is_valid_eng(key) or "")` is truthy exactly when the match
succeeds, because the empty string is falsy; the `elif` line parses as
`(language == RUSSIAN and is_valid_rus(key)) or ""`, and short-circuiting
means `is_valid_rus` runs (and raises re.error) whenever the language tag
is the Russian one. -/
def is_supported_language (language : List Char) (key : List Char) : RegistryResult :=
  if language = SupportedLanguages.ENGLISH ∧ is_valid_eng key = true then
    .ok eng25_str_upper 5
  else if language = SupportedLanguages.RUSSIAN then
    match is_valid_rus key with
    | none => .reError
    | some true => .ok rus36_str_upper 6
    | some false => .valueError
  else .valueError

/-- Claim C4 (code bug).  Called with the default empty key, the
resolution function raises ValueError for the English tag (the pattern
with a plus quantifier rejects the empty string, and the attempted
empty-key escape hatch `or ""` is itself falsy), and raises re.error for
the Russian tag, instead of returning the claimed (alphabet, size) pairs;
the Russian branch in fact raises for every key.  A valid nonempty English
key does return the 25-letter alphabet with size 5. -/
theorem claim_c4_code_bug :
    is_supported_language SupportedLanguages.ENGLISH [] = .valueError ∧
    is_supported_language SupportedLanguages.RUSSIAN [] = .reError ∧
    is_supported_language SupportedLanguages.RUSSIAN [ 'A' ] = .reError ∧
    is_supported_language SupportedLanguages.ENGLISH [ 'K', 'E', 'Y' ]
        = .ok eng25_str_upper 5 ∧
    eng25_str_upper.length = 25 ∧ rus36_str_upper.length = 36 := by
  decide

/-! First-occurrence deduplication and the two chunking policies of the
matrix builders. -/

/-- First-occurrence deduplication, with explicit fuel for structural
recursion; any fuel at least the length of the list gives the same result.
This is the value of sorted(set(text), key=text.index): the sort keys are
the distinct first-occurrence indices, so the order is deterministic and
lists the distinct characters by first occurrence. -/
def dedupFirstAux : Nat → List Char → List Char
  | 0, _ => []
  | _, [] => []
  | fuel + 1, c :: cs => c :: dedupFirstAux fuel (cs.filter (fun x => x ≠ c))

def dedupFirst (l : List Char) : List Char := dedupFirstAux l.length l

theorem dedupFirstAux_nil (f : Nat) : dedupFirstAux f [] = [] := by
  cases f <;> rfl

theorem dedupFirstAux_zero (l : List Char) : dedupFirstAux 0 l = [] := by
  cases l <;> rfl

theorem dedupFirstAux_fuel : ∀ (f g : Nat) {l : List Char},
    l.length ≤ f → l.length ≤ g → dedupFirstAux f l = dedupFirstAux g l := by
  intro f
  induction f with
  | zero =>
    intro g l h1 _
    have hl : l = [] := List.length_eq_zero.1 (Nat.le_zero.1 h1)
    subst hl
    rw [dedupFirstAux_nil, dedupFirstAux_nil]
  | succ f ih =>
    intro g l h1 h2
    match l with
    | [] => rw [dedupFirstAux_nil, dedupFirstAux_nil]
    | c :: cs =>
      match g with
      | 0 => simp at h2
      | g + 1 =>
        simp only [dedupFirstAux]
        have hf : (cs.filter (fun x => x ≠ c)).length ≤ f := by
          have := List.length_filter_le (fun x => x ≠ c) cs
          simp only [List.length_cons] at h1
          omega
        have hg : (cs.filter (fun x => x ≠ c)).length ≤ g := by
          have := List.length_filter_le (fun x => x ≠ c) cs
          simp only [List.length_cons] at h2
          omega
        rw [ih g hf hg]

theorem mem_dedupFirstAux {fuel : Nat} : ∀ {l : List Char} {a : Char},
    l.length ≤ fuel → (a ∈ dedupFirstAux fuel l ↔ a ∈ l) := by
  induction fuel with
  | zero =>
    intro l a h
    have : l = [] := List.length_eq_zero.1 (Nat.le_zero.1 h)
    subst this
    simp [dedupFirstAux]
  | succ fuel ih =>
    intro l a h
    match l with
    | [] => simp [dedupFirstAux]
    | c :: cs =>
      simp only [dedupFirstAux, List.mem_cons]
      have hf : (cs.filter (fun x => x ≠ c)).length ≤ fuel := by
        have := List.length_filter_le (fun x => x ≠ c) cs
        simp only [List.length_cons] at h
        omega
      rw [ih hf]
      simp only [List.mem_filter, decide_eq_true_eq]
      constructor
      · rintro (rfl | ⟨hm, _⟩)
        · exact Or.inl rfl
        · exact Or.inr hm
      · rintro (rfl | hm)
        · exact Or.inl rfl
        · by_cases hac : a = c
          · exact Or.inl hac
          · exact Or.inr ⟨hm, hac⟩

theorem mem_dedupFirst {l : List Char} {a : Char} : a ∈ dedupFirst l ↔ a ∈ l :=
  mem_dedupFirstAux (Nat.le_refl _)

theorem nodup_dedupFirstAux {fuel : Nat} : ∀ {l : List Char},
    l.length ≤ fuel → (dedupFirstAux fuel l).Nodup := by
  induction fuel with
  | zero =>
    intro l h
    have : l = [] := List.length_eq_zero.1 (Nat.le_zero.1 h)
    subst this
    simp [dedupFirstAux]
  | succ fuel ih =>
    intro l h
    match l with
    | [] => simp [dedupFirstAux]
    | c :: cs =>
      simp only [dedupFirstAux]
      have hf : (cs.filter (fun x => x ≠ c)).length ≤ fuel := by
        have := List.length_filter_le (fun x => x ≠ c) cs
        simp only [List.length_cons] at h
        omega
      refine List.nodup_cons.2 ⟨?_, ih hf⟩
      intro hmem
      have := (mem_dedupFirstAux hf).1 hmem
      simp only [List.mem_filter, decide_eq_true_eq] at this
      exact this.2 rfl

theorem nodup_dedupFirst (l : List Char) : (dedupFirst l).Nodup :=
  nodup_dedupFirstAux (Nat.le_refl _)

/-- Deduplicating a concatenation starts with the deduplication of the
first part. -/
theorem dedupFirst_append (xs ys : List Char) :
    ∃ zs, dedupFirst (xs ++ ys) = dedupFirst xs ++ zs := by
  suffices h : ∀ (fuel : Nat) (xs ys : List Char), xs.length + ys.length ≤ fuel →
      ∃ zs, dedupFirstAux fuel (xs ++ ys) = dedupFirstAux fuel xs ++ zs by
    obtain ⟨zs, hzs⟩ := h (xs.length + ys.length) xs ys (Nat.le_refl _)
    refine ⟨zs, ?_⟩
    unfold dedupFirst
    have e1 : dedupFirstAux (xs ++ ys).length (xs ++ ys)
        = dedupFirstAux (xs.length + ys.length) (xs ++ ys) :=
      dedupFirstAux_fuel _ _ (by simp) (by simp)
    have e2 : dedupFirstAux xs.length xs = dedupFirstAux (xs.length + ys.length) xs :=
      dedupFirstAux_fuel _ _ (Nat.le_refl _) (by omega)
    rw [e1, hzs, e2]
  intro fuel
  induction fuel with
  | zero =>
    intro xs ys h
    have hx : xs = [] := List.length_eq_zero.1 (by omega)
    subst hx
    exact ⟨[], by simp [dedupFirstAux_zero]⟩
  | succ fuel ih =>
    intro xs ys h
    match xs with
    | [] =>
      exact ⟨dedupFirstAux (fuel + 1) ys, rfl⟩
    | c :: xs =>
      have hlen : (xs.filter (fun x => x ≠ c)).length
          + (ys.filter (fun x => x ≠ c)).length ≤ fuel := by
        have h1 := List.length_filter_le (fun x => x ≠ c) xs
        have h2 := List.length_filter_le (fun x => x ≠ c) ys
        simp only [List.length_cons] at h
        omega
      obtain ⟨zs, hzs⟩ := ih (xs.filter (fun x => x ≠ c)) (ys.filter (fun x => x ≠ c)) hlen
      refine ⟨zs, ?_⟩
      simp only [List.cons_append, dedupFirstAux, List.append_eq]
      rw [List.filter_append, hzs]

/-- Python slicing loop, `[text[i:i+size] for i in range(0, len(text), size)]`,
with explicit fuel; keeps a ragged final row.  Any fuel at least the length
of the list is enough when the step is positive. -/
def sliceChunksAux (size : Nat) : Nat → List Char → List (List Char)
  | 0, _ => []
  | _, [] => []
  | fuel + 1, l => l.take size :: sliceChunksAux size fuel (l.drop size)

def sliceChunks (size : Nat) (l : List Char) : List (List Char) :=
  sliceChunksAux size l.length l

theorem sliceChunksAux_join {size : Nat} (hs : 0 < size) : ∀ {fuel : Nat} {l : List Char},
    l.length ≤ fuel → (sliceChunksAux size fuel l).flatten = l := by
  intro fuel
  induction fuel with
  | zero =>
    intro l h
    have : l = [] := List.length_eq_zero.1 (Nat.le_zero.1 h)
    subst this
    rfl
  | succ fuel ih =>
    intro l h
    match l with
    | [] => rfl
    | c :: cs =>
      have hle : (List.drop size (c :: cs)).length ≤ fuel := by
        simp only [List.length_drop, List.length_cons] at h ⊢
        omega
      simp only [sliceChunksAux, List.flatten_cons]
      rw [ih hle]
      exact List.take_append_drop size (c :: cs)

theorem sliceChunks_join {size : Nat} (hs : 0 < size) (l : List Char) :
    (sliceChunks size l).flatten = l :=
  sliceChunksAux_join hs (Nat.le_refl _)

/-- utils.generate_matrix_by_key.  The slicing loop `range(0, n, 0)` raises
ValueError when the requested size is zero, modelled as none. -/
def generate_matrix_by_key (alphabet : List Char) (size : Nat) (key : List Char) :
    Option (List (List Char)) :=
  if size = 0 then none
  else some (sliceChunks size (dedupFirst (key ++ alphabet)))

/-- Claim C5.  For a positive width and a keyword drawn from the alphabet,
the keyword-seeded matrix builder produces a grid whose concatenated rows
are exactly the first-occurrence deduplication of keyword followed by
alphabet: every alphabet character appears exactly once, only alphabet
characters appear, and the deduplicated keyword occupies the earliest
positions in first-occurrence order. -/
theorem claim_c5 (alphabet key : List Char) (size : Nat) (hs : 0 < size)
    (hk : ∀ c ∈ key, c ∈ alphabet) :
    (generate_matrix_by_key alphabet size key).map (fun g => g.flatten)
        = some (dedupFirst (key ++ alphabet)) ∧
    (∀ c ∈ alphabet, (dedupFirst (key ++ alphabet)).count c = 1) ∧
    (∀ c ∈ dedupFirst (key ++ alphabet), c ∈ alphabet) ∧
    (dedupFirst (key ++ alphabet)).take (dedupFirst key).length = dedupFirst key := by
  refine ⟨?_, ?_, ?_, ?_⟩
  · unfold generate_matrix_by_key
    rw [if_neg (by omega)]
    simp only [Option.map_some']
    rw [sliceChunks_join hs]
  · intro c hc
    exact List.count_eq_one_of_mem (nodup_dedupFirst _)
      (mem_dedupFirst.2 (List.mem_append.2 (Or.inr hc)))
  · intro c hc
    rcases List.mem_append.1 (mem_dedupFirst.1 hc) with h | h
    · exact hk c h
    · exact h
  · obtain ⟨zs, hzs⟩ := dedupFirst_append key alphabet
    rw [hzs]
    exact List.take_left _ _

/-- Witness for claim C5 with keyword "KEYWORD" over the 26-letter
alphabet at width 5; the deduplicated keyword is K, E, Y, W, O, R, D. -/
theorem claim_c5_witness :
    ((generate_matrix_by_key eng26_str_upper 5 [ 'K', 'E', 'Y', 'W', 'O', 'R', 'D' ]).map
        (fun g => g.flatten)
      = some (dedupFirst ([ 'K', 'E', 'Y', 'W', 'O', 'R', 'D' ] ++ eng26_str_upper)) ∧
     (∀ c ∈ eng26_str_upper,
       (dedupFirst ([ 'K', 'E', 'Y', 'W', 'O', 'R', 'D' ] ++ eng26_str_upper)).count c = 1) ∧
     (∀ c ∈ dedupFirst ([ 'K', 'E', 'Y', 'W', 'O', 'R', 'D' ] ++ eng26_str_upper),
       c ∈ eng26_str_upper) ∧
     (dedupFirst ([ 'K', 'E', 'Y', 'W', 'O', 'R', 'D' ] ++ eng26_str_upper)).take
         (dedupFirst [ 'K', 'E', 'Y', 'W', 'O', 'R', 'D' ]).length
       = dedupFirst [ 'K', 'E', 'Y', 'W', 'O', 'R', 'D' ]) ∧
    dedupFirst [ 'K', 'E', 'Y', 'W', 'O', 'R', 'D' ]
      = [ 'K', 'E', 'Y', 'W', 'O', 'R', 'D' ] :=
  ⟨claim_c5 eng26_str_upper [ 'K', 'E', 'Y', 'W', 'O', 'R', 'D' ] 5 (by decide) (by decide),
   by decide⟩

/-- The zip-of-one-iterator idiom of utils.generate_matrix_by_cols and
cipher_utils.generate_matrix: emit a full row of the requested width while
enough characters remain, silently dropping any remainder (zip stops at
the first exhausted tuple element).  Explicit fuel; any fuel at least the
length of the list is enough. -/
def zipChunksAux (size : Nat) : Nat → List Char → List (List Char)
  | 0, _ => []
  | _, [] => []
  | fuel + 1, l =>
    if 0 < size ∧ size ≤ l.length then l.take size :: zipChunksAux size fuel (l.drop size)
    else []

/-- utils.generate_matrix_by_cols (identical code to
cipher_utils.generate_matrix): `tuple(row for row in zip(*[iter(alphabet)] * cols))`. -/
def generate_matrix_by_cols (alphabet : List Char) (cols : Nat) : List (List Char) :=
  zipChunksAux cols alphabet.length alphabet

theorem zipChunksAux_rows {size : Nat} : ∀ {fuel : Nat} {l : List Char},
    ∀ row ∈ zipChunksAux size fuel l, row.length = size := by
  intro fuel
  induction fuel with
  | zero =>
    intro l row hrow
    simp [zipChunksAux] at hrow
  | succ fuel ih =>
    intro l row hrow
    match l with
    | [] => simp [zipChunksAux] at hrow
    | c :: cs =>
      simp only [zipChunksAux] at hrow
      by_cases hc : 0 < size ∧ size ≤ (c :: cs).length
      · rw [if_pos hc] at hrow
        rcases List.mem_cons.1 hrow with rfl | h
        · exact List.length_take_of_le hc.2
        · exact ih _ h
      · rw [if_neg hc] at hrow
        simp at hrow

theorem zipChunksAux_join {size : Nat} (hs : 0 < size) : ∀ {fuel : Nat} {l : List Char},
    l.length ≤ fuel →
    (zipChunksAux size fuel l).flatten = l.take (size * (l.length / size)) := by
  intro fuel
  induction fuel with
  | zero =>
    intro l h
    have : l = [] := List.length_eq_zero.1 (Nat.le_zero.1 h)
    subst this
    simp [zipChunksAux]
  | succ fuel ih =>
    intro l h
    match l with
    | [] => simp [zipChunksAux]
    | c :: cs =>
      simp only [zipChunksAux]
      by_cases hc : size ≤ (c :: cs).length
      · have hle : (List.drop size (c :: cs)).length ≤ fuel := by
          simp only [List.length_drop, List.length_cons] at h ⊢
          omega
        rw [if_pos ⟨hs, hc⟩]
        simp only [List.flatten_cons]
        rw [ih hle]
        have hdiv : (c :: cs).length / size = ((c :: cs).length - size) / size + 1 :=
          Nat.div_eq_sub_div hs hc
        have hlen : ((c :: cs).drop size).length = (c :: cs).length - size := by
          simp [List.length_drop]
        rw [hlen, hdiv, Nat.mul_add, Nat.mul_one, Nat.add_comm (size * _) size,
          List.take_add]
      · rw [if_neg (fun hand => hc hand.2)]
        have : (c :: cs).length / size = 0 := Nat.div_eq_of_lt (by omega)
        rw [this, Nat.mul_zero, List.take_zero]
        rfl

/-- Claim C6, amended.  With a positive column count the chunked builder
neither pads nor raises: it returns only full rows of the requested width,
its concatenated output is the longest multiple-of-cols front segment of
the alphabet (silently dropping any remainder), and when the column count
divides the alphabet length the rows slice the whole alphabet in order. -/
theorem claim_c6_amended (alphabet : List Char) (cols : Nat) (h : 0 < cols) :
    (∀ row ∈ generate_matrix_by_cols alphabet cols, row.length = cols) ∧
    (generate_matrix_by_cols alphabet cols).flatten
        = alphabet.take (cols * (alphabet.length / cols)) ∧
    (cols ∣ alphabet.length → (generate_matrix_by_cols alphabet cols).flatten = alphabet) := by
  refine ⟨fun row hrow => zipChunksAux_rows row hrow, ?_, ?_⟩
  · exact zipChunksAux_join h (Nat.le_refl _)
  · intro hdvd
    have hj : (generate_matrix_by_cols alphabet cols).flatten
        = alphabet.take (cols * (alphabet.length / cols)) :=
      zipChunksAux_join h (Nat.le_refl _)
    rw [hj, Nat.mul_div_cancel' hdvd, List.take_length]

/-- Counterexample for claim C6 as stated: on a 5-character alphabet with
2 columns the builder neither pads the final row nor raises; it silently
drops the fifth character, which is therefore not accounted for in the
outcome. -/
theorem claim_c6_counterexample :
    generate_matrix_by_cols [ 'A', 'B', 'C', 'D', 'E' ] 2
        = [ [ 'A', 'B' ], [ 'C', 'D' ] ] ∧
    'E' ∉ (generate_matrix_by_cols [ 'A', 'B', 'C', 'D', 'E' ] 2).flatten := by
  decide

/-- Witness for claim C6 (amended) on the divisible example from the spec. -/
theorem claim_c6_witness :
    (generate_matrix_by_cols [ 'A', 'B', 'C', 'D', 'E', 'F' ] 2).flatten
        = [ 'A', 'B', 'C', 'D', 'E', 'F' ] :=
  (claim_c6_amended [ 'A', 'B', 'C', 'D', 'E', 'F' ] 2 (by decide)).2.2 (by decide)

/-! Polybius square cipher (class PolybiusSquare in src/ciphers.py). -/

theorem get?_some_lt {α : Type} {l : List α} {i : Nat} {a : α}
    (h : l.get? i = some a) : i < l.length := by
  by_contra hc
  rw [List.get?_eq_none.2 (by omega)] at h
  cases h

/-- The matrix cipher_utils builds for the default English table:
`generate_matrix(eng25_str_upper, 5)`. -/
def eng25_matrix_upper : List (List Char) := generate_matrix_by_cols eng25_str_upper 5

namespace PolybiusSquare

/-- Coordinate lookup of `_get_coords`: the dict comprehension binds each
character of each row to (row index, first column index inside that row),
rows scanned in order with later rows overwriting earlier bindings, which
this auxiliary models by preferring the recursive (later-row) result.  The
first argument of the recursion is the index of the head row. -/
def coordAux (c : Char) : Nat → List (List Char) → Option (Nat × Nat)
  | _, [] => none
  | i, row :: rest =>
    match coordAux c (i + 1) rest with
    | some p => some p
    | none => if c ∈ row then some (i, row.indexOf c) else none

def getCoords (table : List (List Char)) (c : Char) : Option (Nat × Nat) :=
  coordAux c 0 table

/-- Instance state: the stored table together with the stored coordinate
dictionary derived from it. -/
structure State where
  table : List (List Char)
  coords : Char → Option (Nat × Nat)

/-- Embedding of PolybiusSquare.__init__: store the table, derive the coordinates. -/
def init (table : List (List Char)) : State :=
  { table := table, coords := getCoords table }

/-- The table setter: the runtime check that the argument is a list of
lists of strings always holds in this typed embedding, after which the
setter stores the table and rebuilds the coordinate dictionary. -/
def setTable (_st : State) (table : List (List Char)) : State :=
  { table := table, coords := getCoords table }

/-- Embedding of PolybiusSquare.encrypt: uppercase, keep only characters present in
the coordinate dictionary, emit row and column indices as decimal
digits. -/
def encrypt (st : State) (msg : List Char) : List Char :=
  (pyUpperList msg).flatMap (fun c =>
    match st.coords c with
    | some p => Nat.toDigits 10 p.1 ++ Nat.toDigits 10 p.2
    | none => [])

/-- The output block contributed by one retained or dropped character of
`encrypt`, for a freshly constructed instance. -/
def encBlock (table : List (List Char)) (c : Char) : List Char :=
  match getCoords table c with
  | some p => Nat.toDigits 10 p.1 ++ Nat.toDigits 10 p.2
  | none => []

theorem encrypt_init (t : List (List Char)) (msg : List Char) :
    encrypt (init t) msg = (pyUpperList msg).flatMap (encBlock t) := rfl

/-- The range(0, len(msg), 2) loop of PolybiusSquare.decrypt: each
digit pair is parsed with `int(...)` and used to index the table; any
parse failure or out-of-range index raises, modelled as none.  The
one-element case cannot be reached because decrypt rejects odd lengths
first. -/
def decryptPairs (st : State) : List Char → Option (List Char)
  | [] => some []
  | a :: b :: rest =>
    ((pyIntChar a).bind fun i => (pyIntChar b).bind fun j =>
      (st.table.get? i).bind fun row => row.get? j).bind fun ch =>
      (decryptPairs st rest).map fun tl => ch :: tl
  | [_] => none

/-- Embedding of PolybiusSquare.decrypt: uppercase, raise ValueError on odd length,
then read consecutive digit pairs as (row, column) positions. -/
def decrypt (st : State) (msg : List Char) : Option (List Char) :=
  if (pyUpperList msg).length % 2 ≠ 0 then none
  else decryptPairs st (pyUpperList msg)

/-- Specification of a successful coordinate lookup: the returned row
index descends from the start index to an actual row, and the column
index points at the looked-up character inside that row. -/
theorem coordAux_spec {c : Char} : ∀ {rows : List (List Char)} {k i j : Nat},
    coordAux c k rows = some (i, j) →
    k ≤ i ∧ ∃ row, rows.get? (i - k) = some row ∧ j < row.length ∧ row.get? j = some c := by
  intro rows
  induction rows with
  | nil =>
    intro k i j h
    cases h
  | cons row rest ih =>
    intro k i j h
    simp only [coordAux] at h
    match hrec : coordAux c (k + 1) rest with
    | some p =>
      rw [hrec] at h
      cases h
      obtain ⟨hk, r, hr, hj, hc⟩ := ih hrec
      refine ⟨by omega, r, ?_, hj, hc⟩
      have hik : i - k = (i - (k + 1)) + 1 := by omega
      rw [hik]
      simpa using hr
    | none =>
      rw [hrec] at h
      by_cases hmem : c ∈ row
      · rw [if_pos hmem] at h
        cases h
        exact ⟨Nat.le_refl _, row, by simp, List.indexOf_lt_length.2 hmem,
          List.indexOf_get? hmem⟩
      · rw [if_neg hmem] at h
        cases h

theorem getCoords_spec {table : List (List Char)} {c : Char} {i j : Nat}
    (h : getCoords table c = some (i, j)) :
    ∃ row, table.get? i = some row ∧ j < row.length ∧ row.get? j = some c := by
  obtain ⟨_, row, hr, hj, hc⟩ := coordAux_spec h
  exact ⟨row, by simpa using hr, hj, hc⟩

end PolybiusSquare

-- sanity check examples for the Polybius square
example : PolybiusSquare.encrypt (PolybiusSquare.init eng25_matrix_upper)
    [ 'h', 'e', 'l', 'l', 'o', '!' ] = [ '1', '2', '0', '4', '2', '5', '2', '5', '2', '9' ]
    |> Not := by decide
example : PolybiusSquare.encrypt (PolybiusSquare.init eng25_matrix_upper)
    [ 'a', 'b', '!' ] = [ '0', '0', '0', '1' ] := by decide
example : PolybiusSquare.decrypt (PolybiusSquare.init eng25_matrix_upper)
    [ '0', '0', '0', '1' ] = some [ 'A', 'B' ] := by decide
example : PolybiusSquare.decrypt (PolybiusSquare.init eng25_matrix_upper)
    [ '0', '0', '0' ] = none := by decide

/-- Decidable facts about the concrete default table, used by claim C10:
every coordinate lookup lands inside a 5 by 5 grid of single digit
indices. -/
theorem eng25_table_shape :
    eng25_matrix_upper.length = 5 ∧
    (∀ row ∈ eng25_matrix_upper, row.length = 5) := by
  decide

/-- Claim C10.  Over the default English 5 by 5 table, every Polybius
encryption has even length, consists only of the digits '0' through '4',
and decrypt accepts it: the even-length precondition holds and every digit
pair is an in-bounds coordinate, so decryption returns a value. -/
theorem claim_c10 (msg : List Char) :
    (PolybiusSquare.encrypt (PolybiusSquare.init eng25_matrix_upper) msg).length % 2 = 0 ∧
    (∀ c ∈ PolybiusSquare.encrypt (PolybiusSquare.init eng25_matrix_upper) msg,
      '0' ≤ c ∧ c ≤ '4') ∧
    (PolybiusSquare.decrypt (PolybiusSquare.init eng25_matrix_upper)
      (PolybiusSquare.encrypt (PolybiusSquare.init eng25_matrix_upper) msg)).isSome = true := by
  have hdig : ∀ i < 5, Nat.toDigits 10 i = [Char.ofNat (48 + i)] := by decide
  have hbounds : ∀ {c : Char} {i j : Nat},
      PolybiusSquare.getCoords eng25_matrix_upper c = some (i, j) → i < 5 ∧ j < 5 := by
    intro c i j h
    obtain ⟨row, hrow, hj, _⟩ := PolybiusSquare.getCoords_spec h
    have hi : i < eng25_matrix_upper.length := get?_some_lt hrow
    have hrl : row.length = 5 :=
      eng25_table_shape.2 row (List.get?_mem hrow)
    exact ⟨by rw [eng25_table_shape.1] at hi; exact hi, by omega⟩
  -- the per-character output block is either empty or a good digit pair
  have hblock : ∀ c : Char,
      PolybiusSquare.encBlock eng25_matrix_upper c = [] ∨
      ∃ i j, i < 5 ∧ j < 5 ∧
        PolybiusSquare.encBlock eng25_matrix_upper c
          = [Char.ofNat (48 + i), Char.ofNat (48 + j)] := by
    intro c
    unfold PolybiusSquare.encBlock
    match hc : PolybiusSquare.getCoords eng25_matrix_upper c with
    | none => exact Or.inl rfl
    | some (i, j) =>
      obtain ⟨hi, hj⟩ := hbounds hc
      refine Or.inr ⟨i, j, hi, hj, ?_⟩
      show Nat.toDigits 10 i ++ Nat.toDigits 10 j
          = [Char.ofNat (48 + i), Char.ofNat (48 + j)]
      rw [hdig i hi, hdig j hj]
      rfl
  -- structural facts about encryption of an arbitrary uppercased list
  have main : ∀ l : List Char,
      (l.flatMap (PolybiusSquare.encBlock eng25_matrix_upper)).length % 2 = 0 ∧
      (∀ c ∈ l.flatMap (PolybiusSquare.encBlock eng25_matrix_upper), '0' ≤ c ∧ c ≤ '4') ∧
      (PolybiusSquare.decryptPairs (PolybiusSquare.init eng25_matrix_upper)
        (l.flatMap (PolybiusSquare.encBlock eng25_matrix_upper))).isSome = true := by
    intro l
    induction l with
    | nil =>
      refine ⟨rfl, ?_, rfl⟩
      intro c hc
      cases hc
    | cons c l ih =>
      rw [List.flatMap_cons]
      rcases hblock c with hnil | ⟨i, j, hi, hj, hpair⟩
      · rw [hnil]
        simpa using ih
      · rw [hpair]
        obtain ⟨ih1, ih2, ih3⟩ := ih
        refine ⟨?_, ?_, ?_⟩
        · rw [List.length_append]
          have h2l : ([Char.ofNat (48 + i), Char.ofNat (48 + j)]).length = 2 := rfl
          rw [h2l]
          omega
        · intro d hd
          rcases List.mem_cons.1 hd with rfl | hd
          · constructor
            · show 48 ≤ (Char.ofNat (48 + i)).toNat
              rw [toNat_ofNat_valid (by omega)]
              omega
            · show (Char.ofNat (48 + i)).toNat ≤ 52
              rw [toNat_ofNat_valid (by omega)]
              omega
          rcases List.mem_cons.1 hd with rfl | hd
          · constructor
            · show 48 ≤ (Char.ofNat (48 + j)).toNat
              rw [toNat_ofNat_valid (by omega)]
              omega
            · show (Char.ofNat (48 + j)).toNat ≤ 52
              rw [toNat_ofNat_valid (by omega)]
              omega
          · exact ih2 d hd
        · have hstep : ∀ i2 < 5, ∀ j2 < 5,
              ((pyIntChar (Char.ofNat (48 + i2))).bind fun a =>
                (pyIntChar (Char.ofNat (48 + j2))).bind fun b =>
                ((PolybiusSquare.init eng25_matrix_upper).table.get? a).bind fun row =>
                  row.get? b).isSome = true := by
            decide
          have hsome := hstep i hi j hj
          simp only [List.cons_append, List.append_eq, List.nil_append,
            PolybiusSquare.decryptPairs]
          cases hv : ((pyIntChar (Char.ofNat (48 + i))).bind fun a =>
              (pyIntChar (Char.ofNat (48 + j))).bind fun b =>
              ((PolybiusSquare.init eng25_matrix_upper).table.get? a).bind fun row =>
                row.get? b) with
          | none =>
            rw [hv] at hsome
            cases hsome
          | some ch =>
            simp only [Option.some_bind]
            cases hrec : PolybiusSquare.decryptPairs (PolybiusSquare.init eng25_matrix_upper)
                (l.flatMap (PolybiusSquare.encBlock eng25_matrix_upper)) with
            | none => rw [hrec] at ih3; cases ih3
            | some tl => rfl
  obtain ⟨h1, h2, h3⟩ := main (pyUpperList msg)
  rw [PolybiusSquare.encrypt_init]
  refine ⟨h1, h2, ?_⟩
  unfold PolybiusSquare.decrypt
  have hfix : pyUpperList ((pyUpperList msg).flatMap
      (PolybiusSquare.encBlock eng25_matrix_upper))
      = (pyUpperList msg).flatMap (PolybiusSquare.encBlock eng25_matrix_upper) := by
    apply pyUpperList_fixed
    intro c hc
    have hb := h2 c hc
    apply pyUpperChar_not_low
    have hle : c.toNat ≤ 52 := hb.2
    omega
  rw [hfix, if_neg (by rw [h1]; simp)]
  exact h3

/-! Vigenere cipher (class Vigenere in src/ciphers.py). -/

/-- Python slice index normalization for `s[i:]` and `s[:i]` on a list of
length n: negative indices count from the end, out-of-range indices
clamp. -/
def pySliceIdx (i : Int) (n : Nat) : Nat :=
  if 0 ≤ i then min i.toNat n else n - min (-i).toNat n

/-- Embedding of Vigenere._shift_alphabet:
`eng26_str_upper[self._shift:] + eng26_str_upper[:self._shift]`. -/
def shiftAlphabet (shift : Int) : List Char :=
  eng26_str_upper.drop (pySliceIdx shift 26) ++ eng26_str_upper.take (pySliceIdx shift 26)

/-- Stable insertion sort on a numeric key, modelling CPython `sorted`
(which is stable): an element is inserted after all earlier elements with
an equal key. -/
def insertStable {α : Type} (k : α → Nat) (x : α) : List α → List α
  | [] => [x]
  | y :: ys => if k x ≤ k y then x :: y :: ys else y :: insertStable k x ys

def sortStable {α : Type} (k : α → Nat) : List α → List α
  | [] => []
  | x :: xs => insertStable k x (sortStable k xs)

theorem insertStable_perm {α : Type} (k : α → Nat) (x : α) :
    ∀ l : List α, (insertStable k x l).Perm (x :: l) := by
  intro l
  induction l with
  | nil => exact List.Perm.refl _
  | cons y ys ih =>
    simp only [insertStable]
    by_cases h : k x ≤ k y
    · rw [if_pos h]
    · rw [if_neg h]
      exact (List.Perm.cons y ih).trans (List.Perm.swap x y ys)

theorem sortStable_perm {α : Type} (k : α → Nat) :
    ∀ l : List α, (sortStable k l).Perm l := by
  intro l
  induction l with
  | nil => exact List.Perm.refl _
  | cons x xs ih =>
    exact (insertStable_perm k x (sortStable k xs)).trans (List.Perm.cons x ih)

/-- The sort key of `Vigenere._generate_matrix`:
`self._key.index(x) if x in self._key else self._alphabet.index(x)`. -/
def vigSortKey (key alphabet : List Char) (c : Char) : Nat :=
  if c ∈ key then key.indexOf c else alphabet.indexOf c

/-- The sequence `unique_chars` of `Vigenere._generate_matrix`:
`sorted(set(self._key + self._alphabet), key=...)`.  CPython iterates a
set in a hash-dependent order, and `sorted` is stable, so the source only
determines the result up to the relative order of characters with equal
sort keys; this embedding canonicalizes the set enumeration to
first-occurrence order.  The round-trip theorems below depend only on
membership and distinctness and hold for every enumeration order; the
concrete counterexamples are noted where the tie order matters. -/
def uniqueChars (key alphabet : List Char) : List Char :=
  sortStable (vigSortKey key alphabet) (dedupFirst (key ++ alphabet))

/-- Rows of `Vigenere._generate_matrix`: for i in range(n, 0, -1) the row
is `unique_chars[-i:] + unique_chars[:-i]`; substituting j = n - i, the
rows for j = 0 to n - 1 are the left rotations by j. -/
def genMatrix (u : List Char) : List (List Char) :=
  (List.range u.length).map (fun j => u.drop j ++ u.take j)

namespace Vigenere

/-- Instance state of class Vigenere: stored key, shift, rotated alphabet
and matrix. -/
structure State where
  key : List Char
  shift : Int
  alphabet : List Char
  matrix : List (List Char)
deriving DecidableEq

/-- Embedding of Vigenere.__init__: store key and shift, derive the rotated alphabet,
then derive the matrix from key and rotated alphabet. -/
def init (key : List Char) (shift : Int) : State :=
  { key := key, shift := shift, alphabet := shiftAlphabet shift,
    matrix := genMatrix (uniqueChars key (shiftAlphabet shift)) }

/-- The key setter: stores the key only; neither the rotated alphabet nor
the matrix is re-derived. -/
def setKey (st : State) (key : List Char) : State :=
  { st with key := key }

/-- The shift setter: stores the shift and re-derives the rotated
alphabet, but not the matrix. -/
def setShift (st : State) (shift : Int) : State :=
  { st with shift := shift, alphabet := shiftAlphabet shift }

/-- Embedding of Vigenere.encrypt: look up each uppercased message character and each
key character in row 0 of the matrix (ValueError when absent), extend the
key indices cyclically (ZeroDivisionError when the key is empty and the
message is not), and emit `matrix[msg_index][key_index]` per position. -/
def encrypt (st : State) (msg0 : List Char) : Option (List Char) :=
  (st.matrix.get? 0).bind fun row0 =>
  (collectSome ((pyUpperList msg0).map (pyIndex row0))).bind fun msgInd =>
  (collectSome (st.key.map (pyIndex row0))).bind fun keyInd =>
  collectSome ((List.range msgInd.length).map (fun i =>
    (pyModGet keyInd i).bind fun kj =>
    (msgInd.get? i).bind fun m =>
    (st.matrix.get? m).bind fun row => row.get? kj))

/-- Embedding of Vigenere.decrypt: look up the key characters in row 0, then per
position find the uppercased ciphertext character inside the key-indexed
row and answer with the row 0 entry at the found column. -/
def decrypt (st : State) (msg0 : List Char) : Option (List Char) :=
  (st.matrix.get? 0).bind fun row0 =>
  (collectSome (st.key.map (pyIndex row0))).bind fun keyInd =>
  collectSome ((List.range (pyUpperList msg0).length).map (fun i =>
    (pyModGet keyInd i).bind fun kj =>
    ((pyUpperList msg0).get? i).bind fun c =>
    (st.matrix.get? kj).bind fun row =>
    (pyIndex row c).bind fun t =>
    row0.get? t))

end Vigenere

-- sanity check examples for the Vigenere cipher
example : Vigenere.encrypt (Vigenere.init [ 'A' ] 0) [ 'b' ] = some [ 'B' ] := by decide
example : Vigenere.encrypt (Vigenere.init [ 'B' ] 0) [ 'a', 'B' ] = some [ 'A', 'B' ] := by
  decide
example : Vigenere.decrypt (Vigenere.init [ 'B' ] 0)
    [ 'A', 'B' ] = some [ 'A', 'B' ] := by decide
example : Vigenere.encrypt (Vigenere.init [] 0) [ 'A' ] = none := by decide
example : Vigenere.encrypt (Vigenere.init [ 'A' ] 0) [ 'A', '!' ] = none := by decide

/-! Helper lemmas for the Vigenere round trip. -/

theorem getD_eq_of_get? {α : Type} {l : List α} {n : Nat} {a : α} (d : α)
    (h : l.get? n = some a) : l.getD n d = a := by
  show (l.get? n).getD d = a
  rw [h]
  rfl

theorem get?_eq_some_getD {α : Type} {l : List α} {n : Nat} (d : α)
    (h : n < l.length) : l.get? n = some (l.getD n d) := by
  cases hx : l.get? n with
  | none =>
    rw [List.get?_eq_none] at hx
    omega
  | some a =>
    rw [getD_eq_of_get? d hx]

theorem getD_mem {α : Type} {l : List α} {n : Nat} (d : α) (h : n < l.length) :
    l.getD n d ∈ l :=
  List.get?_mem (get?_eq_some_getD d h)

theorem nodup_get?_inj {α : Type} {l : List α} {i j : Nat} {a : α} (hnd : l.Nodup)
    (h1 : l.get? i = some a) (h2 : l.get? j = some a) : i = j := by
  obtain ⟨hi, hgi⟩ := List.get?_eq_some.1 h1
  obtain ⟨hj, hgj⟩ := List.get?_eq_some.1 h2
  have hfin : (⟨i, hi⟩ : Fin l.length) = ⟨j, hj⟩ :=
    (List.Nodup.get_inj_iff hnd).1 (by rw [hgi, hgj])
  exact congrArg Fin.val hfin

theorem pyIndex_some {l : List Char} {c : Char} (h : c ∈ l) :
    pyIndex l c = some (l.indexOf c) := if_pos h

theorem indexOf_lt {l : List Char} {c : Char} (h : c ∈ l) : l.indexOf c < l.length :=
  List.indexOf_lt_length.2 h

theorem collectSome_map_some {α β : Type} {l : List α} {f : α → Option β} {g : α → β}
    (h : ∀ x ∈ l, f x = some (g x)) : collectSome (l.map f) = some (l.map g) := by
  induction l with
  | nil => rfl
  | cons x xs ih =>
    rw [List.map_cons, List.map_cons, h x (List.mem_cons_self x xs)]
    show (collectSome (xs.map f)).map _ = _
    rw [ih (fun y hy => h y (List.mem_cons_of_mem x hy))]
    rfl

theorem collectSome_map_none {α β : Type} {l : List α} {f : α → Option β}
    (h : ∃ x ∈ l, f x = none) : collectSome (l.map f) = none := by
  induction l with
  | nil =>
    obtain ⟨x, hx, _⟩ := h
    cases hx
  | cons y ys ih =>
    rw [List.map_cons]
    obtain ⟨x, hx, hfx⟩ := h
    rcases List.mem_cons.1 hx with rfl | hx
    · rw [hfx]
      rfl
    · cases hfy : f y with
      | none => rfl
      | some b =>
        show (collectSome (ys.map f)).map _ = _
        rw [ih ⟨x, hx, hfx⟩]
        rfl

theorem rot_length {u : List Char} {j : Nat} (h : j ≤ u.length) :
    (u.drop j ++ u.take j).length = u.length := by
  rw [List.length_append, List.length_drop, List.length_take]
  omega

theorem rot_get {u : List Char} {j t : Nat} (hj : j ≤ u.length) (ht : t < u.length) :
    (u.drop j ++ u.take j).get? t = u.get? ((j + t) % u.length) := by
  by_cases hc : t < u.length - j
  · rw [List.get?_append (by rw [List.length_drop]; omega), List.get?_drop]
    congr 1
    rw [Nat.mod_eq_of_lt (by omega)]
  · rw [List.get?_append_right (by rw [List.length_drop]; omega), List.length_drop,
      List.get?_take (by omega)]
    congr 1
    rw [Nat.mod_eq_sub_mod (by omega), Nat.mod_eq_of_lt (by omega)]
    omega

theorem rot_mem {u : List Char} {j : Nat} {c : Char} :
    c ∈ u.drop j ++ u.take j ↔ c ∈ u := by
  rw [List.mem_append, Or.comm, ← List.mem_append, List.take_append_drop]

theorem rot_nodup {u : List Char} {j : Nat} (h : u.Nodup) :
    (u.drop j ++ u.take j).Nodup := by
  have hp : (u.take j ++ u.drop j).Perm (u.drop j ++ u.take j) := List.perm_append_comm
  rw [List.take_append_drop] at hp
  exact hp.nodup h

theorem genMatrix_get {u : List Char} {j : Nat} (h : j < u.length) :
    (genMatrix u).get? j = some (u.drop j ++ u.take j) := by
  unfold genMatrix
  rw [List.get?_map, List.get?_range h]
  rfl

theorem mem_uniqueChars {key alph : List Char} {c : Char} :
    c ∈ uniqueChars key alph ↔ c ∈ key ++ alph := by
  unfold uniqueChars
  rw [(sortStable_perm _ _).mem_iff, mem_dedupFirst]

theorem nodup_uniqueChars (key alph : List Char) : (uniqueChars key alph).Nodup :=
  (sortStable_perm _ _).symm.nodup (nodup_dedupFirst _)

theorem range_map_getD {α : Type} (l : List α) (d : α) :
    (List.range l.length).map (fun i => l.getD i d) = l := by
  apply List.ext
  intro n
  by_cases h : n < l.length
  · rw [List.get?_map, List.get?_range h, Option.map_some', get?_eq_some_getD d h]
  · rw [List.get?_map, List.get?_eq_none.2 (by rw [List.length_range]; omega),
      List.get?_eq_none.2 (by omega)]
    rfl

/-- Core of the Vigenere round trip, stated for an arbitrary
duplicate-free row sequence u standing for `unique_chars`: with a
nonempty key drawn from u, uppercase-fixed matrix characters, and a
message whose uppercased characters lie in u, decryption inverts
encryption.  The stored shift and alphabet fields are irrelevant to both
operations. -/
theorem vig_roundtrip_core (key u msg : List Char) (s : Int) (a : List Char)
    (hnd : u.Nodup) (hkey : key ≠ []) (hkeysub : ∀ c ∈ key, c ∈ u)
    (hupperU : ∀ c ∈ u, pyUpperChar c = c)
    (hmsg : ∀ c ∈ pyUpperList msg, c ∈ u) :
    (Vigenere.encrypt ⟨key, s, a, genMatrix u⟩ msg).bind
      (Vigenere.decrypt ⟨key, s, a, genMatrix u⟩) = some (pyUpperList msg) := by
  have hnz : key.length ≠ 0 := fun h => hkey (List.length_eq_zero.1 h)
  have hnpos : 0 < u.length := by
    match key, hkey with
    | c :: key2, _ =>
      exact List.length_pos_of_mem (hkeysub c (List.mem_cons_self c key2))
  have hrow0 : (genMatrix u).get? 0 = some u := by
    rw [genMatrix_get hnpos, List.drop_zero, List.take_zero, List.append_nil]
  have hmsgInd : collectSome ((pyUpperList msg).map (pyIndex u))
      = some ((pyUpperList msg).map (fun c => u.indexOf c)) :=
    collectSome_map_some (fun c hc => pyIndex_some (hmsg c hc))
  have hkeyInd : collectSome (key.map (pyIndex u))
      = some (key.map (fun c => u.indexOf c)) :=
    collectSome_map_some (fun c hc => pyIndex_some (hkeysub c hc))
  have hModGet : ∀ i : Nat, pyModGet (key.map (fun c => u.indexOf c)) i
      = some (u.indexOf (key.getD (i % key.length) 'A')) := by
    intro i
    unfold pyModGet
    rw [if_neg (by rw [List.length_map]; exact hnz), List.length_map, List.get?_map,
      get?_eq_some_getD 'A' (Nat.mod_lt _ (by omega))]
    rfl
  have hkmem : ∀ i : Nat, key.getD (i % key.length) 'A' ∈ u :=
    fun i => hkeysub _ (getD_mem 'A' (Nat.mod_lt _ (by omega)))
  have hklt : ∀ i : Nat, u.indexOf (key.getD (i % key.length) 'A') < u.length :=
    fun i => indexOf_lt (hkmem i)
  -- the encryption result, elementwise
  have henc : Vigenere.encrypt ⟨key, s, a, genMatrix u⟩ msg
      = some ((List.range (pyUpperList msg).length).map (fun i =>
          u.getD ((u.indexOf ((pyUpperList msg).getD i 'A')
            + u.indexOf (key.getD (i % key.length) 'A')) % u.length) 'A')) := by
    show ((genMatrix u).get? 0).bind _ = _
    rw [hrow0]
    simp only [Option.some_bind]
    rw [hmsgInd]
    simp only [Option.some_bind]
    rw [hkeyInd]
    simp only [Option.some_bind, List.length_map]
    apply collectSome_map_some
    intro i hi
    have hiM : i < (pyUpperList msg).length := List.mem_range.1 hi
    rw [hModGet i]
    simp only [Option.some_bind]
    rw [List.get?_map, get?_eq_some_getD 'A' hiM]
    simp only [Option.map_some', Option.some_bind]
    have hmem : (pyUpperList msg).getD i 'A' ∈ u := hmsg _ (getD_mem 'A' hiM)
    have hmlt : u.indexOf ((pyUpperList msg).getD i 'A') < u.length := indexOf_lt hmem
    rw [genMatrix_get hmlt]
    simp only [Option.some_bind]
    rw [rot_get (Nat.le_of_lt hmlt) (hklt i)]
    exact get?_eq_some_getD 'A' (Nat.mod_lt _ (by omega))
  -- characters of the ciphertext lie in u
  have hout_mem : ∀ c ∈ (List.range (pyUpperList msg).length).map (fun i =>
      u.getD ((u.indexOf ((pyUpperList msg).getD i 'A')
        + u.indexOf (key.getD (i % key.length) 'A')) % u.length) 'A'), c ∈ u := by
    intro c hc
    obtain ⟨i, _, rfl⟩ := List.mem_map.1 hc
    exact getD_mem 'A' (Nat.mod_lt _ (by omega))
  have hout_fix : pyUpperList ((List.range (pyUpperList msg).length).map (fun i =>
      u.getD ((u.indexOf ((pyUpperList msg).getD i 'A')
        + u.indexOf (key.getD (i % key.length) 'A')) % u.length) 'A'))
      = (List.range (pyUpperList msg).length).map (fun i =>
      u.getD ((u.indexOf ((pyUpperList msg).getD i 'A')
        + u.indexOf (key.getD (i % key.length) 'A')) % u.length) 'A') :=
    pyUpperList_fixed (fun c hc => hupperU c (hout_mem c hc))
  -- decryption of the ciphertext
  have hdec : Vigenere.decrypt ⟨key, s, a, genMatrix u⟩
      ((List.range (pyUpperList msg).length).map (fun i =>
        u.getD ((u.indexOf ((pyUpperList msg).getD i 'A')
          + u.indexOf (key.getD (i % key.length) 'A')) % u.length) 'A'))
      = some (pyUpperList msg) := by
    show ((genMatrix u).get? 0).bind _ = _
    rw [hrow0]
    simp only [Option.some_bind]
    rw [hkeyInd]
    simp only [Option.some_bind]
    rw [hout_fix, List.length_map, List.length_range]
    have hr : some ((List.range (pyUpperList msg).length).map
        (fun i => (pyUpperList msg).getD i 'A')) = some (pyUpperList msg) := by
      rw [range_map_getD]
    rw [← hr]
    apply collectSome_map_some
    intro i hi
    have hiM : i < (pyUpperList msg).length := List.mem_range.1 hi
    rw [hModGet i]
    simp only [Option.some_bind]
    rw [List.get?_map, List.get?_range hiM]
    simp only [Option.map_some', Option.some_bind]
    rw [genMatrix_get (hklt i)]
    simp only [Option.some_bind]
    have hmem : (pyUpperList msg).getD i 'A' ∈ u := hmsg _ (getD_mem 'A' hiM)
    have hmlt : u.indexOf ((pyUpperList msg).getD i 'A') < u.length := indexOf_lt hmem
    have hgu : u.getD ((u.indexOf ((pyUpperList msg).getD i 'A')
        + u.indexOf (key.getD (i % key.length) 'A')) % u.length) 'A' ∈ u :=
      getD_mem 'A' (Nat.mod_lt _ (by omega))
    have hgrot : u.getD ((u.indexOf ((pyUpperList msg).getD i 'A')
        + u.indexOf (key.getD (i % key.length) 'A')) % u.length) 'A'
        ∈ u.drop (u.indexOf (key.getD (i % key.length) 'A'))
          ++ u.take (u.indexOf (key.getD (i % key.length) 'A')) := rot_mem.2 hgu
    rw [pyIndex_some hgrot]
    simp only [Option.some_bind]
    -- the found column equals the original message index
    have hrnd : (u.drop (u.indexOf (key.getD (i % key.length) 'A'))
        ++ u.take (u.indexOf (key.getD (i % key.length) 'A'))).Nodup := rot_nodup hnd
    have e1 := List.indexOf_get? hgrot
    have e2 : (u.drop (u.indexOf (key.getD (i % key.length) 'A'))
        ++ u.take (u.indexOf (key.getD (i % key.length) 'A'))).get?
          (u.indexOf ((pyUpperList msg).getD i 'A'))
        = some (u.getD ((u.indexOf ((pyUpperList msg).getD i 'A')
            + u.indexOf (key.getD (i % key.length) 'A')) % u.length) 'A') := by
      rw [rot_get (Nat.le_of_lt (hklt i)) hmlt, Nat.add_comm]
      exact get?_eq_some_getD 'A' (Nat.mod_lt _ (by omega))
    have hcol : (u.drop (u.indexOf (key.getD (i % key.length) 'A'))
        ++ u.take (u.indexOf (key.getD (i % key.length) 'A'))).indexOf
          (u.getD ((u.indexOf ((pyUpperList msg).getD i 'A')
            + u.indexOf (key.getD (i % key.length) 'A')) % u.length) 'A')
        = u.indexOf ((pyUpperList msg).getD i 'A') :=
      nodup_get?_inj hrnd e1 e2
    rw [hcol]
    exact List.indexOf_get? hmem
  rw [henc]
  simp only [Option.some_bind]
  exact hdec

theorem eng26_upper_fixed : ∀ c ∈ eng26_str_upper, pyUpperChar c = c := by decide

theorem mem_shiftAlphabet {shift : Int} {c : Char} :
    c ∈ shiftAlphabet shift ↔ c ∈ eng26_str_upper := by
  unfold shiftAlphabet
  exact rot_mem

/-- Claim C2, amended.  For a nonempty key whose characters are unchanged
by uppercasing, and a message whose uppercased characters all occur in
row 0 of the matrix (the key characters occur there by construction),
Vigenere decryption inverts Vigenere encryption up to uppercasing, the
key repeating cyclically. -/
theorem claim_c2_amended (key : List Char) (shift : Int) (msg : List Char)
    (hkey : key ≠ [])
    (hupper : ∀ c ∈ key, pyUpperChar c = c)
    (hmsg : ∀ c ∈ pyUpperList msg, c ∈ uniqueChars key (shiftAlphabet shift)) :
    (Vigenere.encrypt (Vigenere.init key shift) msg).bind
      (Vigenere.decrypt (Vigenere.init key shift)) = some (pyUpperList msg) := by
  have hupperU : ∀ c ∈ uniqueChars key (shiftAlphabet shift), pyUpperChar c = c := by
    intro c hc
    rcases List.mem_append.1 (mem_uniqueChars.1 hc) with h | h
    · exact hupper c h
    · exact eng26_upper_fixed c (mem_shiftAlphabet.1 h)
  exact vig_roundtrip_core key (uniqueChars key (shiftAlphabet shift)) msg shift
    (shiftAlphabet shift) (nodup_uniqueChars _ _) hkey
    (fun c hc => mem_uniqueChars.2 (List.mem_append.2 (Or.inl hc)))
    hupperU hmsg

/-- Counterexample for claim C2 as stated.  With key "Ab" (lowercase
second letter) every uppercased character of the message "AA" lies in
row 0, yet the round trip returns "Ab", because decryption uppercases the
ciphertext before looking it up; and with the empty key the round trip
raises ZeroDivisionError instead of returning "A".  The source leaves the
order of equal-sort-key characters to CPython set hashing; both possible
orders for the one tie of this key ('b' against 'B') make the round trip
fail on this input, and the value below is computed for the canonical
stable order. -/
theorem claim_c2_counterexample :
    ((pyUpperList [ 'A', 'A' ]).all
      (fun c => (uniqueChars [ 'A', 'b' ] (shiftAlphabet 0)).contains c) = true) ∧
    ([ 'A', 'b' ].all
      (fun c => (uniqueChars [ 'A', 'b' ] (shiftAlphabet 0)).contains c) = true) ∧
    (Vigenere.encrypt (Vigenere.init [ 'A', 'b' ] 0) [ 'A', 'A' ]).bind
      (Vigenere.decrypt (Vigenere.init [ 'A', 'b' ] 0)) = some [ 'A', 'b' ] ∧
    some [ 'A', 'b' ] ≠ some (pyUpperList [ 'A', 'A' ]) ∧
    (Vigenere.encrypt (Vigenere.init [] 0) [ 'A' ]).bind
      (Vigenere.decrypt (Vigenere.init [] 0)) = none := by
  decide

/-- Witness for claim C2 (amended) with key "KEY", shift 3, message
"Hi". -/
theorem claim_c2_witness :
    (Vigenere.encrypt (Vigenere.init [ 'K', 'E', 'Y' ] 3) [ 'H', 'i' ]).bind
      (Vigenere.decrypt (Vigenere.init [ 'K', 'E', 'Y' ] 3))
      = some (pyUpperList [ 'H', 'i' ]) :=
  claim_c2_amended [ 'K', 'E', 'Y' ] 3 [ 'H', 'i' ] (by decide) (by decide) (by decide)

/-- Claim C7, amended.  PolybiusSquare.encrypt silently drops characters
absent from its coordinate dictionary and returns the encryption of the
retained uppercased characters, for every table and input;
Vigenere.encrypt instead raises ValueError as soon as any uppercased
input character is absent from row 0 of its matrix. -/
theorem claim_c7_amended :
    (∀ (table : List (List Char)) (msg : List Char),
      PolybiusSquare.encrypt (PolybiusSquare.init table) msg
        = PolybiusSquare.encrypt (PolybiusSquare.init table)
            ((pyUpperList msg).filter
              (fun c => (PolybiusSquare.getCoords table c).isSome))) ∧
    (∀ (key : List Char) (shift : Int) (msg : List Char) (c : Char),
      c ∈ pyUpperList msg → c ∉ uniqueChars key (shiftAlphabet shift) →
      Vigenere.encrypt (Vigenere.init key shift) msg = none) := by
  constructor
  · intro table msg
    rw [PolybiusSquare.encrypt_init, PolybiusSquare.encrypt_init]
    have hfix : pyUpperList ((pyUpperList msg).filter
        (fun c => (PolybiusSquare.getCoords table c).isSome))
        = (pyUpperList msg).filter
            (fun c => (PolybiusSquare.getCoords table c).isSome) := by
      apply pyUpperList_fixed
      intro c hc
      have hcm : c ∈ pyUpperList msg := List.mem_of_mem_filter hc
      obtain ⟨y, _, rfl⟩ := List.mem_map.1 hcm
      exact pyUpperChar_idem y
    rw [hfix]
    have hdrop : ∀ l : List Char,
        l.flatMap (PolybiusSquare.encBlock table)
          = (l.filter (fun c => (PolybiusSquare.getCoords table c).isSome)).flatMap
              (PolybiusSquare.encBlock table) := by
      intro l
      induction l with
      | nil => rfl
      | cons c l ih =>
        rw [List.flatMap_cons, List.filter_cons]
        cases hc : (PolybiusSquare.getCoords table c).isSome with
        | true =>
          rw [if_pos (by simp [hc]), List.flatMap_cons, ih]
        | false =>
          rw [if_neg (by simp [hc])]
          have hnil : PolybiusSquare.encBlock table c = [] := by
            unfold PolybiusSquare.encBlock
            cases hg : PolybiusSquare.getCoords table c with
            | none => rfl
            | some p => rw [hg] at hc; cases hc
          rw [hnil, List.nil_append, ih]
    exact hdrop (pyUpperList msg)
  · intro key shift msg c hcm hcnot
    have hApos : 'A' ∈ uniqueChars key (shiftAlphabet shift) :=
      mem_uniqueChars.2 (List.mem_append.2 (Or.inr (mem_shiftAlphabet.2 (by decide))))
    have hnpos : 0 < (uniqueChars key (shiftAlphabet shift)).length :=
      List.length_pos_of_mem hApos
    have hrow0 : (genMatrix (uniqueChars key (shiftAlphabet shift))).get? 0
        = some (uniqueChars key (shiftAlphabet shift)) := by
      rw [genMatrix_get hnpos, List.drop_zero, List.take_zero, List.append_nil]
    show ((genMatrix (uniqueChars key (shiftAlphabet shift))).get? 0).bind _ = none
    rw [hrow0]
    simp only [Option.some_bind]
    rw [collectSome_map_none ⟨c, hcm, if_neg hcnot⟩]
    rfl

/-- Counterexample for claim C7 as stated: Vigenere encryption of "A!"
with the default key "A" raises instead of succeeding, while the filtered
input "A" encrypts fine; so not every encrypt operation drops foreign
characters. -/
theorem claim_c7_counterexample :
    Vigenere.encrypt (Vigenere.init [ 'A' ] 0) [ 'A', '!' ] = none ∧
    Vigenere.encrypt (Vigenere.init [ 'A' ] 0) [ 'A' ] = some [ 'A' ] := by
  decide

/-- Witness for claim C7 (amended): Polybius filtering on a mixed input,
and the Vigenere error on the same kind of input. -/
theorem claim_c7_witness :
    (PolybiusSquare.encrypt (PolybiusSquare.init eng25_matrix_upper) [ 'a', '!', 'b' ]
      = PolybiusSquare.encrypt (PolybiusSquare.init eng25_matrix_upper)
          ((pyUpperList [ 'a', '!', 'b' ]).filter
            (fun c => (PolybiusSquare.getCoords eng25_matrix_upper c).isSome))) ∧
    Vigenere.encrypt (Vigenere.init [ 'A' ] 0) [ 'A', '!' ] = none :=
  ⟨claim_c7_amended.1 eng25_matrix_upper [ 'a', '!', 'b' ],
   claim_c7_amended.2 [ 'A' ] 0 [ 'A', '!' ] '!' (by decide) (by decide)⟩

/-- Claim C8 (code bug).  The Vigenere key setter stores the key without
rebuilding the matrix, and the shift setter rebuilds the rotated alphabet
but not the matrix, so after either setter the derived state differs from
a fresh construction with the same configuration; only the Polybius table
setter re-derives everything, matching a fresh instance exactly.  (For
the shift example, both resolutions of the one sort-key tie in the fresh
matrix differ from the stale matrix.) -/
theorem claim_c8_code_bug :
    (Vigenere.setKey (Vigenere.init [ 'A', 'B' ] 0) [ 'B', 'A' ]).matrix
      ≠ (Vigenere.init [ 'B', 'A' ] 0).matrix ∧
    (Vigenere.setShift (Vigenere.init [ 'A' ] 0) 3).matrix
      ≠ (Vigenere.init [ 'A' ] 3).matrix ∧
    (Vigenere.setShift (Vigenere.init [ 'A' ] 0) 3).alphabet
      = (Vigenere.init [ 'A' ] 3).alphabet ∧
    (∀ (st : PolybiusSquare.State) (t : List (List Char)),
      PolybiusSquare.setTable st t = PolybiusSquare.init t) := by
  refine ⟨by decide, by decide, by decide, ?_⟩
  intro st t
  rfl

/-! Digraph pair processing: BigramCipher._process_pair in
src/crypt_types.py, the same row/column/rectangle rule as
CryptBigramsBase._process_pair and Playfer._process_pair. -/

/-- Embedding of the shared _find_position: scan the rows in order, return the first hit as
(row index, first column index), or the sentinel (-1, -1) when the
character is absent from every row. -/
def findPositionAux (c : Char) : Int → List (List Char) → Int × Int
  | _, [] => (-1, -1)
  | i, row :: rest =>
    if c ∈ row then (i, (row.indexOf c : Int)) else findPositionAux c (i + 1) rest

def findPosition (c : Char) (matrix : List (List Char)) : Int × Int :=
  findPositionAux c 0 matrix

/-- Python list indexing including negative-index semantics: for negative
i, l[i] is l[len(l) + i]; out of range raises IndexError, modelled as
none. -/
def pyGetI {α : Type} (l : List α) (i : Int) : Option α :=
  if 0 ≤ i then l.get? i.toNat
  else if (-i).toNat ≤ l.length then l.get? (l.length - (-i).toNat)
  else none

/-- Python `%` with an integer divisor that may be zero: none models the
ZeroDivisionError. -/
def pyModI (a : Int) (n : Nat) : Option Int :=
  if n = 0 then none else some (a % (n : Int))

/-- Embedding of BigramCipher._process_pair (direction -1 for encryption, 1 for
decryption): locate both characters, then either shift both columns
(shared row), shift both rows (shared column), or swap the two columns
(rectangle), and concatenate the two matrix entries. -/
def processPair (matrix : List (List Char)) (size : Nat) (c1 c2 : Char)
    (direction : Int) : Option (List Char) :=
  if (findPosition c1 matrix).1 = (findPosition c2 matrix).1 then
    (pyModI ((findPosition c1 matrix).2 + direction) size).bind fun n1 =>
    (pyModI ((findPosition c2 matrix).2 + direction) size).bind fun n2 =>
    (pyGetI matrix (findPosition c1 matrix).1).bind fun row1 =>
    (pyGetI row1 n1).bind fun e1 =>
    (pyGetI matrix (findPosition c2 matrix).1).bind fun row2 =>
    (pyGetI row2 n2).map fun e2 => [e1, e2]
  else if (findPosition c1 matrix).2 = (findPosition c2 matrix).2 then
    (pyModI ((findPosition c1 matrix).1 + direction) size).bind fun n1 =>
    (pyModI ((findPosition c2 matrix).1 + direction) size).bind fun n2 =>
    (pyGetI matrix n1).bind fun row1 =>
    (pyGetI row1 (findPosition c1 matrix).2).bind fun e1 =>
    (pyGetI matrix n2).bind fun row2 =>
    (pyGetI row2 (findPosition c2 matrix).2).map fun e2 => [e1, e2]
  else
    (pyGetI matrix (findPosition c1 matrix).1).bind fun row1 =>
    (pyGetI row1 (findPosition c2 matrix).2).bind fun e1 =>
    (pyGetI matrix (findPosition c2 matrix).1).bind fun row2 =>
    (pyGetI row2 (findPosition c1 matrix).2).map fun e2 => [e1, e2]

/-- Claim C9.  When the two characters sit at distinct rows and distinct
columns (the rectangle case), pair processing ignores the direction: any
direction gives the same result, namely each character replaced by the
entry at its own row and the other character's column. -/
theorem claim_c9 (matrix : List (List Char)) (size : Nat) (c1 c2 : Char) (d : Int)
    (hrow : (findPosition c1 matrix).1 ≠ (findPosition c2 matrix).1)
    (hcol : (findPosition c1 matrix).2 ≠ (findPosition c2 matrix).2) :
    processPair matrix size c1 c2 d = processPair matrix size c1 c2 1 ∧
    processPair matrix size c1 c2 d
      = ((pyGetI matrix (findPosition c1 matrix).1).bind fun row1 =>
        (pyGetI row1 (findPosition c2 matrix).2).bind fun e1 =>
        (pyGetI matrix (findPosition c2 matrix).1).bind fun row2 =>
        (pyGetI row2 (findPosition c1 matrix).2).map fun e2 => [e1, e2]) := by
  unfold processPair
  simp only [if_neg hrow, if_neg hcol]
  exact ⟨trivial, trivial⟩

/-- Witness for claim C9 on the 2 by 2 matrix AB / CD with the rectangle
pair A, D: both directions give BC. -/
theorem claim_c9_witness :
    processPair [ [ 'A', 'B' ], [ 'C', 'D' ] ] 2 'A' 'D' (-1)
      = processPair [ [ 'A', 'B' ], [ 'C', 'D' ] ] 2 'A' 'D' 1 ∧
    processPair [ [ 'A', 'B' ], [ 'C', 'D' ] ] 2 'A' 'D' (-1) = some [ 'B', 'C' ] :=
  ⟨(claim_c9 [ [ 'A', 'B' ], [ 'C', 'D' ] ] 2 'A' 'D' (-1)
      (by decide) (by decide)).1,
   by decide⟩

/-- Witness for claim C1 at shift 7, message "Hi, zebra!". -/
theorem claim_c1_witness :
    Caesar.decrypt 7 (Caesar.encrypt 7 [ 'H', 'i', ',', ' ', 'z' ])
        = pyUpperList [ 'H', 'i', ',', ' ', 'z' ] ∧
    (0 ≤ (('B'.toNat : Int) + 7 - 65) % 26 ∧ (('B'.toNat : Int) + 7 - 65) % 26 < 26) ∧
    (Caesar.encChar 7 '!' = '!' ∧ Caesar.decChar 7 '!' = '!') :=
  ⟨(claim_c1 7 [ 'H', 'i', ',', ' ', 'z' ]).1,
   ((claim_c1 7 [ 'H', 'i', ',', ' ', 'z' ]).2.1 'B' (by decide)).1,
   (claim_c1 7 [ 'H', 'i', ',', ' ', 'z' ]).2.2 '!' (by decide)⟩
